import Mathlib

/-!
Verification of the BOA campaign-orchestration core against its
natural-language specification.

The definitions below are a shallow embedding of the Python sources:

* `boa/spec/encoder.py`   — `MixedSpaceEncoder` (encode / decode / snap_to_grid)
* `boa/core/ledger.py`    — `ProposalLedger` (record_decision / add_observation)
* `boa/core/engine.py`    — `CampaignEngine.add_observation`
* `boa/core/executor.py`  — `StrategyExecutor.execute_optimization` (reference point)
* `boa/db/repository.py`  — `CampaignRepository.update_status`, `ProcessRepository`
* `boa/db/job_queue.py`   — `JobQueue.complete` / `JobQueue.fail`

Machine floats are modelled by exact rationals (encoder, ledger) or reals
(executor, whose std involves a square root); Python exceptions are modelled
by `Option` / `Except`.
-/

namespace BOA

/-! ## Raw values and input maps -/

/-- A raw user-facing value: numeric (continuous/discrete inputs) or a
categorical level name. -/
inductive Value where
  | num (q : ℚ)
  | str (s : String)
deriving DecidableEq, Repr

/-- A raw input map, as the keys/values of the Python dict handed to
`encode` (association list; first binding wins, as in a dict there are no
duplicate keys). -/
abbrev RawMap := List (String × Value)

/-- Dictionary lookup: `m[k]`, `none` models a Python `KeyError`. -/
def lookupV : RawMap → String → Option Value
  | [], _ => none
  | (k, v) :: rest, nm => if k = nm then some v else lookupV rest nm

/-! ## Process-spec inputs (`boa/spec/models.py`) -/

/-- The payload of one input declaration.  For a discrete input the code
derives `bounds = (min(values), max(values))`. -/
inductive InputKind where
  | continuous (lo hi : ℚ)
  | discrete (values : List ℚ)
  | categorical (cats : List String)
deriving DecidableEq, Repr

/-- One declared input: a name, a kind, and the optional `active_if`
mapping (referenced variable name ↦ activating values). -/
structure Input where
  name : String
  kind : InputKind
  activeIf : Option (List (String × List Value))
deriving DecidableEq, Repr

/-- `InputSpec.is_conditional`. -/
def Input.isConditional (inp : Input) : Bool := inp.activeIf.isSome

/-- `min(values)` over a discrete grid (`DiscreteInput.bounds`). -/
def gridMin : List ℚ → ℚ
  | [] => 0
  | g :: rest => rest.foldl min g

/-- `max(values)` over a discrete grid (`DiscreteInput.bounds`). -/
def gridMax : List ℚ → ℚ
  | [] => 0
  | g :: rest => rest.foldl max g

/-! ## MixedSpaceEncoder: encode (`encoder.py` lines 90-160) -/

/-- `np.clip(x, 0, 1)`. -/
def clamp01 (x : ℚ) : ℚ := min 1 (max 0 x)

/-- `MixedSpaceEncoder._check_activity`: every `(ref, values)` condition in
`active_if` must hold — `df[ref].isin(values)` — and a missing referenced
key is a `KeyError` (`none`). -/
def checkActivity (m : RawMap) : List (String × List Value) → Option Bool
  | [] => some true
  | (ref, vals) :: rest => do
      let v ← lookupV m ref
      let b ← checkActivity m rest
      pure (vals.contains v && b)

/-- Whether an input is active under a raw map: unconditional inputs are
always active, otherwise `_check_activity` on the map itself. -/
def isActive (m : RawMap) (inp : Input) : Option Bool :=
  match inp.activeIf with
  | none => some true
  | some conds => checkActivity m conds

/-- Extract the numeric payload (`astype(float)` on a raw cell). -/
def Value.num? : Value → Option ℚ
  | .num q => some q
  | .str _ => none

/-- The columns one input contributes to one encoded row
(`MixedSpaceEncoder.encode`, single-sample case): normalized content
columns, inactive inputs forced to neutral values, plus the trailing
activity-indicator column for conditional inputs.  `none` models the
`KeyError` raised when the map misses a required key. -/
def encodeInput (m : RawMap) (inp : Input) : Option (List ℚ) := do
  let act ← isActive m inp
  let content ←
    match inp.kind with
    | .continuous lo hi => do
        let q ← (lookupV m inp.name).bind Value.num?
        pure [if act then clamp01 ((q - lo) / (hi - lo)) else (1 : ℚ) / 2]
    | .discrete values => do
        let q ← (lookupV m inp.name).bind Value.num?
        let lo := gridMin values
        let hi := gridMax values
        pure [if act then clamp01 ((q - lo) / (hi - lo)) else (1 : ℚ) / 2]
    | .categorical cats => do
        let v ← lookupV m inp.name
        pure (cats.map fun c => if act ∧ v = Value.str c then (1 : ℚ) else 0)
  pure (content ++ if inp.isConditional then [if act then (1 : ℚ) else 0] else [])

/-- One encoded row: the concatenation of every input's columns, in
declaration order (`encode` walks `input_info` advancing `col_idx`). -/
def encodeRow (S : List Input) (m : RawMap) : Option (List ℚ) :=
  match S with
  | [] => some []
  | inp :: rest => do
      let blk ← encodeInput m inp
      let tl ← encodeRow rest m
      pure (blk ++ tl)

/-- Number of content columns of one input. -/
def contentWidth (inp : Input) : Nat :=
  match inp.kind with
  | .continuous _ _ => 1
  | .discrete _ => 1
  | .categorical cats => cats.length

/-- Total encoded columns of one input (content plus activity indicator). -/
def width (inp : Input) : Nat :=
  contentWidth inp + (if inp.isConditional then 1 else 0)

/-- `n_encoded`: the encoder's total column count `d`. -/
def totalWidth (S : List Input) : Nat := (S.map width).sum

/-! ## MixedSpaceEncoder: decode (`encoder.py` lines 162-221) -/

/-- `np.argmax`: index of the first occurrence of the maximum.  The head is
the argmax unless some later element is strictly larger. -/
def argmaxIdx : List ℚ → Nat
  | [] => 0
  | x :: xs => if xs.any (fun y => x < y) then argmaxIdx xs + 1 else 0

/-- `grid[np.argmin(np.abs(grid - v))]`: the first grid value at minimal
absolute distance from `v`.  `bestVal`/`bestDist` carry the best candidate
seen so far. -/
def snapAux (v : ℚ) (bestVal bestDist : ℚ) : List ℚ → ℚ
  | [] => bestVal
  | g :: rest =>
      if |g - v| < bestDist then snapAux v g (|g - v|) rest
      else snapAux v bestVal bestDist rest

/-- Snap `v` to the nearest grid value, ties broken toward the lower index;
`none` on an empty grid (`np.argmin` of an empty array raises). -/
def snapGrid (grid : List ℚ) (v : ℚ) : Option ℚ :=
  match grid with
  | [] => none
  | g :: rest => some (snapAux v g (|g - v|) rest)

/-- Decode one input's raw value from the encoded row: `decode` reads the
content columns at the current offset (denormalize; snap for discrete;
argmax for categorical) and ignores the activity indicator. -/
def decodeInput (inp : Input) (cols : List ℚ) : Option Value :=
  match inp.kind with
  | .continuous lo hi => do
      let c ← cols.head?
      pure (Value.num (c * (hi - lo) + lo))
  | .discrete values => do
      let c ← cols.head?
      let lo := gridMin values
      let hi := gridMax values
      let g ← snapGrid values (c * (hi - lo) + lo)
      pure (Value.num g)
  | .categorical cats =>
      if cats.length ≤ cols.length then
        (cats.get? (argmaxIdx (cols.take cats.length))).map Value.str
      else none

/-- Decode one encoded row back to a raw map, consuming each input's
columns in declaration order and skipping activity indicators. -/
def decodeRow (S : List Input) (cols : List ℚ) : Option RawMap :=
  match S with
  | [] => some []
  | inp :: rest => do
      let v ← decodeInput inp cols
      let tl ← decodeRow rest (cols.drop (width inp))
      pure ((inp.name, v) :: tl)

/-! ## MixedSpaceEncoder: snap_to_grid (`encoder.py` lines 261-311) -/

/-- A one-hot vector of length `k` with the `1` at index `idx`
(`one_hot[:] = 0; one_hot[i, idx] = 1`). -/
def oneHot : Nat → Nat → List ℚ
  | 0, _ => []
  | k + 1, 0 => 1 :: List.replicate k 0
  | k + 1, j + 1 => 0 :: oneHot k j

/-- The projected columns of one input under `snap_to_grid`, reading from
the remaining columns `cols`: discrete columns are denormalized, snapped,
renormalized; categorical groups hardened to one-hot by argmax; continuous
content and activity indicators pass through. -/
def snapInput (inp : Input) (cols : List ℚ) : Option (List ℚ) :=
  match inp.kind with
  | .continuous _ _ => some (cols.take (width inp))
  | .discrete values => do
      let c ← cols.head?
      let lo := gridMin values
      let hi := gridMax values
      let g ← snapGrid values (c * (hi - lo) + lo)
      pure ((g - lo) / (hi - lo) ::
        (cols.drop 1).take (if inp.isConditional then 1 else 0))
  | .categorical cats =>
      if 0 < cats.length ∧ cats.length ≤ cols.length then
        some (oneHot cats.length (argmaxIdx (cols.take cats.length)) ++
          (cols.drop cats.length).take (if inp.isConditional then 1 else 0))
      else none

/-- `snap_to_grid` on one row: each input's block is projected in
declaration order; columns beyond the encoded width pass through. -/
def snapRow (S : List Input) (cols : List ℚ) : Option (List ℚ) :=
  match S with
  | [] => some cols
  | inp :: rest => do
      let blk ← snapInput inp cols
      let tl ← snapRow rest (cols.drop (width inp))
      pure (blk ++ tl)

/-- `snap_to_grid` on an `n × d` matrix, row by row. -/
def snapMatrix (S : List Input) : List (List ℚ) → Option (List (List ℚ))
  | [] => some []
  | r :: rs => do
      let r' ← snapRow S r
      let rs' ← snapMatrix S rs
      pure (r' :: rs')

/-! ## Spec well-formedness and map validity -/

/-- Structural conditions the pydantic validators of `boa/spec/models.py`
enforce on a single input: continuous bounds `lo < hi`; a discrete grid is
nonempty; categories are nonempty and unique. -/
def wfKind (inp : Input) : Prop :=
  match inp.kind with
  | .continuous lo hi => lo < hi
  | .discrete values => values ≠ []
  | .categorical cats => cats ≠ [] ∧ cats.Nodup

instance (inp : Input) : Decidable (wfKind inp) := by
  unfold wfKind; exact match inp.kind with
    | .continuous _ _ => inferInstance
    | .discrete _ => inferInstance
    | .categorical _ => inferInstance

/-- A well-formed process spec: unique input names and per-input
structural conditions (`ProcessSpec.validate_inputs` and the per-kind
field validators). -/
def WFSpec (S : List Input) : Prop :=
  (S.map Input.name).Nodup ∧ ∀ inp ∈ S, wfKind inp

instance (S : List Input) : Decidable (WFSpec S) := by
  unfold WFSpec; infer_instance

/-- A raw value that is in range for an input's kind: inside the
continuous bounds, on the discrete grid, or a declared level. -/
def ValidValue : InputKind → Value → Prop
  | .continuous lo hi, .num q => lo ≤ q ∧ q ≤ hi
  | .discrete values, .num q => q ∈ values
  | .categorical cats, .str s => s ∈ cats
  | _, _ => False

instance (k : InputKind) (v : Value) : Decidable (ValidValue k v) := by
  unfold ValidValue; exact match k, v with
    | .continuous _ _, .num _ => inferInstance
    | .continuous _ _, .str _ => inferInstance
    | .discrete _, .num _ => inferInstance
    | .discrete _, .str _ => inferInstance
    | .categorical _, .num _ => inferInstance
    | .categorical _, .str _ => inferInstance

/-- An input map valid under a spec: every declared input is present with
an in-range value. -/
def ValidFor (S : List Input) (m : RawMap) : Prop :=
  ∀ inp ∈ S, ∃ v, lookupV m inp.name = some v ∧ ValidValue inp.kind v

instance (S : List Input) (m : RawMap) : Decidable (ValidFor S m) := by
  unfold ValidFor
  refine List.decidableBAll _ S

/-- Activity of the input named `nm` under a raw map. -/
def activeName (S : List Input) (m : RawMap) (nm : String) : Option Bool :=
  match S.find? (fun i => i.name = nm) with
  | some inp => isActive m inp
  | none => none

/-- Every categorical referenced by some `active_if` of the spec is itself
active under `m`.  (Trivially true when no referenced input is
conditional.) -/
def RefsActive (S : List Input) (m : RawMap) : Prop :=
  ∀ inp ∈ S,
    match inp.activeIf with
    | none => True
    | some conds => ∀ p ∈ conds, activeName S m p.1 = some true

instance (S : List Input) (m : RawMap) : Decidable (RefsActive S m) := by
  unfold RefsActive
  have : ∀ inp : Input, Decidable (match inp.activeIf with
      | none => True
      | some conds => ∀ p ∈ conds, activeName S m p.1 = some true) := by
    intro inp
    exact match inp.activeIf with
      | none => inferInstanceAs (Decidable True)
      | some conds => inferInstance
  exact List.decidableBAll _ S

/-! ## Proposal ledger (`boa/core/ledger.py`) and engine (`boa/core/engine.py`) -/

/-- A stored proposal: owning iteration, origin strategy and the ordered
raw candidate list (the fields `record_decision` and
`get_pending_candidates` consult). -/
structure ProposalE where
  id : Nat
  iterationId : Nat
  strategyName : String
  candidatesRaw : List RawMap
deriving DecidableEq, Repr

/-- A stored decision: the accepted `(proposal_id, candidate_indices)`
pairs for one iteration. -/
structure DecisionE where
  iterationId : Nat
  accepted : List (Nat × List Nat)
deriving DecidableEq, Repr

/-- A stored observation row. -/
structure ObservationE where
  xRaw : RawMap
  xEncoded : Option (List ℚ)
  y : List (String × ℚ)
  source : String
deriving DecidableEq, Repr

/-- The ledger-visible database state of one campaign. -/
structure LedgerState where
  proposals : List ProposalE
  decisions : List DecisionE
  observations : List ObservationE
deriving DecidableEq, Repr

/-- Errors raised by the ledger / engine operations modelled here.
`decisionAlreadyExists` stands for the
`ValueError("Decision already exists for iteration …")` of
`ProposalLedger.record_decision`; `keyError` for the `KeyError` escaping
`MixedSpaceEncoder.encode` on a missing input key. -/
inductive LedgerError where
  | decisionAlreadyExists (iterationId : Nat)
  | keyError
deriving DecidableEq, Repr

/-- `DecisionRepository.get_by_iteration`: the first stored decision for
the iteration, if any. -/
def decisionFor (st : LedgerState) (iterId : Nat) : Option DecisionE :=
  st.decisions.find? (fun d => d.iterationId = iterId)

/-- `ProposalLedger.record_decision`: fail if a decision already exists
for the iteration, else persist a new decision.  The accepted pairs are
stored verbatim — the code performs no further checks on them. -/
def recordDecision (st : LedgerState) (iterId : Nat)
    (accepted : List (Nat × List Nat)) :
    Except LedgerError (DecisionE × LedgerState) :=
  match decisionFor st iterId with
  | some _ => .error (.decisionAlreadyExists iterId)
  | none =>
      let d : DecisionE := ⟨iterId, accepted⟩
      .ok (d, { st with decisions := st.decisions ++ [d] })

/-- `ProposalLedger.add_observation`: builds the row and persists it —
there is no validation step. -/
def ledgerAddObservation (st : LedgerState) (xRaw : RawMap)
    (y : List (String × ℚ)) (xEncoded : Option (List ℚ))
    (source : String) : LedgerState :=
  { st with observations := st.observations ++ [⟨xRaw, xEncoded, y, source⟩] }

/-- `CampaignEngine.add_observation`: encode `x_raw` (which raises on any
missing declared input key), then hand everything to the ledger. -/
def engineAddObservation (S : List Input) (st : LedgerState)
    (xRaw : RawMap) (y : List (String × ℚ)) :
    Except LedgerError LedgerState :=
  match encodeRow S xRaw with
  | none => .error .keyError
  | some enc => .ok (ledgerAddObservation st xRaw y (some enc) "user")

/-- At most one decision per iteration (spec invariant 3). -/
def AtMostOneDecision (st : LedgerState) : Prop :=
  st.decisions.Pairwise (fun d d' => d.iterationId ≠ d'.iterationId)

/-- Modelled from the spec (§4.7/§8): the coverage condition
`keys(y) ⊇ objective_names` that `add_observation` is claimed to check. -/
def coversObjectives (objectives : List String) (y : List (String × ℚ)) :
    Prop :=
  ∀ nm ∈ objectives, (y.lookup nm).isSome = true

instance (objectives : List String) (y : List (String × ℚ)) :
    Decidable (coversObjectives objectives y) := by
  unfold coversObjectives
  exact List.decidableBAll _ objectives

/-- Modelled from the spec (§4.7): the range check `record_decision` is
claimed to run — every candidate index of every accepted pair lies within
the referenced proposal's raw candidate list. -/
def IndicesInRange (st : LedgerState) (accepted : List (Nat × List Nat)) :
    Prop :=
  ∀ p ∈ accepted,
    match st.proposals.find? (fun q => q.id = p.1) with
    | some pr => ∀ i ∈ p.2, i < pr.candidatesRaw.length
    | none => True

instance (st : LedgerState) (accepted : List (Nat × List Nat)) :
    Decidable (IndicesInRange st accepted) := by
  unfold IndicesInRange
  have : ∀ p : Nat × List Nat, Decidable
      (match st.proposals.find? (fun q => q.id = p.1) with
       | some pr => ∀ i ∈ p.2, i < pr.candidatesRaw.length
       | none => True) := by
    intro p
    rcases h : st.proposals.find? (fun q => q.id = p.1) with _ | pr <;> rw [h]
    · exact inferInstanceAs (Decidable True)
    · infer_instance
  exact List.decidableBAll _ accepted

/-! ## Campaign state machine (`boa/db/repository.py` lines 226-276) -/

/-- `CampaignStatus`. -/
inductive CampaignStatus where
  | created
  | active
  | paused
  | completed
  | archived
deriving DecidableEq, Repr

/-- `CampaignRepository.VALID_TRANSITIONS`. -/
def validTransitions : CampaignStatus → List CampaignStatus
  | .created => [.active]
  | .active => [.paused, .completed]
  | .paused => [.active, .archived]
  | .completed => [.archived]
  | .archived => []

/-- Repository-level errors. -/
inductive RepoError where
  | invalidStateTransition (fromSt toSt : CampaignStatus)
deriving DecidableEq, Repr

/-- `CampaignRepository.update_status`: the new status is applied only
when it belongs to `VALID_TRANSITIONS[current]`; otherwise
`InvalidStateTransitionError` is raised and the stored status is left
untouched. -/
def updateStatus (current new : CampaignStatus) :
    Except RepoError CampaignStatus :=
  if new ∈ validTransitions current then .ok new
  else .error (.invalidStateTransition current new)

/-- An edge of the §4.5 transition graph. -/
def StatusEdge (s t : CampaignStatus) : Prop := t ∈ validTransitions s

instance (s t : CampaignStatus) : Decidable (StatusEdge s t) := by
  unfold StatusEdge; infer_instance

/-- The sequence of stored statuses produced by a list of requested
transitions: a successful `update_status` moves to the new status, a
failing one leaves the status unchanged. -/
def statusTrace (s : CampaignStatus) : List CampaignStatus →
    List CampaignStatus
  | [] => [s]
  | t :: ts =>
      match updateStatus s t with
      | .ok s' => s :: statusTrace s' ts
      | .error _ => statusTrace s ts

/-! ## Process repository (`boa/db/repository.py` lines 162-212) -/

/-- One stored process version (the fields the active-version invariant
concerns). -/
structure ProcessRow where
  name : String
  version : Nat
  isActive : Bool
deriving DecidableEq, Repr

/-- The processes table. -/
abbrev ProcessStore := List ProcessRow

/-- `ProcessRepository.create_from_spec`: unconditionally inserts a new
row with `version = 1, is_active = True`; nothing is deactivated. -/
def createFromSpec (store : ProcessStore) (name : String) : ProcessStore :=
  store ++ [⟨name, 1, true⟩]

/-- `ProcessRepository.create_version`: deactivate every active version of
the name, then insert `max existing version + 1` as the new active row.
`none` models the `ValueError` that `max()` raises when no version of the
name exists. -/
def createVersion (store : ProcessStore) (name : String) :
    Option ProcessStore :=
  let versions := store.filter (fun p => p.name = name)
  match versions with
  | [] => none
  | v :: vs =>
      let deactivated := store.map (fun p =>
        if p.name = name ∧ p.isActive then ⟨p.name, p.version, false⟩ else p)
      let newVersion := (vs.map ProcessRow.version).foldl max v.version + 1
      some (deactivated ++ [⟨name, newVersion, true⟩])

/-- Spec invariant 7: for every process name, at most one stored version
is active. -/
def ActiveUnique (store : ProcessStore) : Prop :=
  ∀ nm : String,
    (store.filter (fun p => p.name = nm ∧ p.isActive)).length ≤ 1

/-! ## Job queue (`boa/db/job_queue.py`) -/

/-- `JobStatus`. -/
inductive JobStatus where
  | pending
  | running
  | completed
  | failed
  | cancelled
deriving DecidableEq, Repr

/-- One stored job (the fields `complete` / `fail` touch; `now` stands for
`datetime.utcnow()`). -/
structure JobE where
  id : Nat
  status : JobStatus
  progress : Option ℚ
  result : Option (List (String × ℚ))
  error : Option String
  completedAt : Option Nat
deriving DecidableEq, Repr

/-- The jobs table. -/
abbrev JobStore := List JobE

/-- Job-queue errors (`JobNotFoundError`). -/
inductive JobError where
  | jobNotFound (id : Nat)
deriving DecidableEq, Repr

/-- `JobQueue.get_or_raise`: first job with the id. -/
def findJob (store : JobStore) (id : Nat) : Option JobE :=
  store.find? (fun j => j.id = id)

/-- `JobQueue.complete`: look the job up (raising `JobNotFoundError` when
absent) and set status `COMPLETED`, the result, `completed_at` and
`progress = 1` — the current status is never inspected. -/
def jobComplete (store : JobStore) (id : Nat)
    (result : Option (List (String × ℚ))) (now : Nat) :
    Except JobError JobStore :=
  match findJob store id with
  | none => .error (.jobNotFound id)
  | some _ => .ok (store.map (fun j =>
      if j.id = id then
        { j with status := .completed, result := result,
                 completedAt := some now, progress := some 1 }
      else j))

/-- `JobQueue.fail`: look the job up and set status `FAILED`, the error
string and `completed_at` — again with no status precondition. -/
def jobFail (store : JobStore) (id : Nat) (err : String) (now : Nat) :
    Except JobError JobStore :=
  match findJob store id with
  | none => .error (.jobNotFound id)
  | some _ => .ok (store.map (fun j =>
      if j.id = id then
        { j with status := .failed, error := some err,
                 completedAt := some now }
      else j))

/-! ## Strategy executor reference point
(`boa/core/executor.py` lines 136-155) -/

/-- Sign-flip one `Y` row: each cell whose objective is a minimization is
negated (`Y_transformed[:, i] = -Y_transformed[:, i]`). -/
def signFlipRow (minimizeFlags : List Bool) (row : List ℝ) : List ℝ :=
  List.zipWith (fun mn y => if mn then -y else y) minimizeFlags row

/-- Column `j` of a row-major matrix. -/
def column (Y : List (List ℝ)) (j : Nat) : List ℝ :=
  Y.map (fun r => r.getD j 0)

/-- Minimum of a list of reals (`tensor.min(dim=0)` per column). -/
noncomputable def minList : List ℝ → ℝ
  | [] => 0
  | x :: xs => xs.foldl min x

/-- Arithmetic mean. -/
noncomputable def meanList (xs : List ℝ) : ℝ := xs.sum / xs.length

/-- `tensor.std(dim=0)` per column: the unbiased sample standard
deviation `sqrt(Σ (x − mean)² / (n − 1))` torch uses by default. -/
noncomputable def stdList (xs : List ℝ) : ℝ :=
  Real.sqrt ((xs.map (fun x => (x - meanList xs) ^ 2)).sum /
    ((xs.length : ℝ) - 1))

/-- `Y_transformed.min(dim=0).values` for a `p`-objective matrix. -/
noncomputable def torchMinDim0 (p : Nat) (Y : List (List ℝ)) : List ℝ :=
  (List.range p).map (fun j => minList (column Y j))

/-- `Y_transformed.std(dim=0)` for a `p`-objective matrix. -/
noncomputable def torchStdDim0 (p : Nat) (Y : List (List ℝ)) : List ℝ :=
  (List.range p).map (fun j => stdList (column Y j))

/-- The automatic reference point
`Y_transformed.min(dim=0).values - 0.1 * Y_transformed.std(dim=0)`. -/
noncomputable def autoRefPoint (p : Nat) (Ysigned : List (List ℝ)) :
    List ℝ :=
  List.zipWith (fun mn sd => mn - (1 / 10) * sd)
    (torchMinDim0 p Ysigned) (torchStdDim0 p Ysigned)

/-- The reference point `execute_optimization` hands to
`acq_plugin.build`: a caller-supplied point is converted to a tensor
unchanged; otherwise the automatic point is computed from the sign-flipped
`Y`. -/
noncomputable def refPointUsed (p : Nat) (minimizeFlags : List Bool)
    (Y : List (List ℝ)) (supplied : Option (List ℝ)) : List ℝ :=
  let Ysigned := Y.map (signFlipRow minimizeFlags)
  match supplied with
  | some r => r
  | none => autoRefPoint p Ysigned

/-- Modelled from the spec (§4.6 step 3): "if caller supplied one,
sign-flip it in the same way; else, per-objective
`min(Y_signed) − 0.1·std(Y_signed)`". -/
noncomputable def specRefPoint (p : Nat) (minimizeFlags : List Bool)
    (Y : List (List ℝ)) (supplied : Option (List ℝ)) : List ℝ :=
  let Ysigned := Y.map (signFlipRow minimizeFlags)
  match supplied with
  | some r => signFlipRow minimizeFlags r
  | none => autoRefPoint p Ysigned

/-! ## Concrete fixtures used by the closed counterexamples and
witnesses -/

/-- Unconditional categorical `B ∈ {off, on}`. -/
def exB : Input := ⟨"B", .categorical ["off", "on"], none⟩

/-- Categorical `A ∈ {a, b}`, active iff `B = on` (a conditional
categorical that is itself referenced below). -/
def exA : Input := ⟨"A", .categorical ["a", "b"], some [("B", [.str "on"])]⟩

/-- Continuous `x ∈ [0, 1]`, active iff `A = b`. -/
def exX : Input := ⟨"x", .continuous 0 1, some [("A", [.str "b"])]⟩

/-- A spec whose `active_if` chain references a conditional categorical. -/
def chainSpec : List Input := [exB, exA, exX]

/-- A map valid under `chainSpec` with `A` inactive but set to its second
level, which activates `x`. -/
def chainMap : RawMap :=
  [("B", .str "off"), ("A", .str "b"), ("x", .num 1)]

/-- The S3 seed spec: categorical `additive` plus a conditional
continuous `conc`. -/
def s3Additive : Input :=
  ⟨"additive", .categorical ["none", "MACl", "FAI"], none⟩

/-- `conc ∈ [0.01, 0.5]`, active iff `additive ∈ {MACl, FAI}`. -/
def s3Conc : Input :=
  ⟨"conc", .continuous (1 / 100) (1 / 2),
    some [("additive", [.str "MACl", .str "FAI"])]⟩

/-- The two-input S3 spec. -/
def s3Spec : List Input := [s3Additive, s3Conc]

/-- A valid S3 map with the conditional input active. -/
def s3Map : RawMap := [("additive", .str "MACl"), ("conc", .num (1 / 4))]

/-- An S3 map missing the (inactive) `conc` key. -/
def s3MapMissing : RawMap := [("additive", .str "none")]

/-- A one-input discrete spec for the projection witness. -/
def discSpec : List Input := [⟨"n", .discrete [1, 2, 4], none⟩]

/-- A single-input spec with two objectives for the observation-coverage
counterexample. -/
def obsSpec : List Input := [⟨"x", .continuous 0 1, none⟩]

/-- One-proposal ledger state (proposal `0` with a single candidate). -/
def ledgerOneProposal : LedgerState :=
  ⟨[⟨0, 0, "default", [[("x", .num 1)]]⟩], [], []⟩

/-- Ledger state whose iteration `0` already carries a decision. -/
def ledgerDecided : LedgerState := ⟨[], [⟨0, [(0, [0])]⟩], []⟩

/-- A queue holding a single PENDING job with id `0`. -/
def pendingJobStore : JobStore := [⟨0, .pending, none, none, none, none⟩]

/-! ## Ledger theorems (C3, C8, C4) -/

theorem findDecision_append_self (ds : List DecisionE) (iterId : Nat)
    (accepted : List (Nat × List Nat))
    (h : ds.find? (fun d => d.iterationId = iterId) = none) :
    (ds ++ [(⟨iterId, accepted⟩ : DecisionE)]).find?
      (fun d => d.iterationId = iterId) = some ⟨iterId, accepted⟩ := by
  rw [List.find?_append, h]
  simp

/-- C3: `record_decision` creates the single decision for an iteration; a
second call on an already-decided iteration fails with the
decision-already-exists error and leaves the stored decision untouched,
and any successful call preserves the at-most-one-decision-per-iteration
invariant. -/
theorem recordDecision_at_most_one (st : LedgerState) (iterId : Nat)
    (accepted : List (Nat × List Nat)) :
    (decisionFor st iterId = none →
      recordDecision st iterId accepted =
        .ok (⟨iterId, accepted⟩,
          { st with decisions := st.decisions ++ [⟨iterId, accepted⟩] })) ∧
    (∀ d, decisionFor st iterId = some d →
      recordDecision st iterId accepted =
        .error (.decisionAlreadyExists iterId) ∧
      decisionFor st iterId = some d) ∧
    (AtMostOneDecision st → ∀ d' st',
      recordDecision st iterId accepted = .ok (d', st') →
      AtMostOneDecision st') := by
  refine ⟨?_, ?_, ?_⟩
  · intro h
    unfold recordDecision
    rw [h]
  · intro d h
    refine ⟨?_, h⟩
    unfold recordDecision
    rw [h]
  · intro hinv d' st' h
    unfold recordDecision at h
    cases hd : decisionFor st iterId with
    | some d => rw [hd] at h; cases h
    | none =>
        rw [hd] at h
        cases h
        unfold AtMostOneDecision at hinv ⊢
        rw [List.pairwise_append]
        refine ⟨hinv, List.pairwise_singleton _ _, ?_⟩
        intro a ha b hb
        unfold decisionFor at hd
        rw [List.find?_eq_none] at hd
        have := hd a ha
        simp at this hb
        rw [hb]
        simpa using this

/-- Closed instance of `recordDecision_at_most_one`: the second decision
on iteration 0 of `ledgerDecided` fails, and a fresh decision on
`ledgerOneProposal` succeeds. -/
theorem recordDecision_at_most_one_witness :
    recordDecision ledgerDecided 0 [] =
      .error (.decisionAlreadyExists 0) ∧
    recordDecision ledgerOneProposal 0 [(0, [0])] =
      .ok (⟨0, [(0, [0])]⟩,
        { ledgerOneProposal with
            decisions := ledgerOneProposal.decisions ++ [⟨0, [(0, [0])]⟩] }) :=
  ⟨((recordDecision_at_most_one ledgerDecided 0 []).2.1
      ⟨0, [(0, [0])]⟩ (by decide)).1,
   (recordDecision_at_most_one ledgerOneProposal 0 [(0, [0])]).1 (by decide)⟩

/-- C8 (counterexample): `record_decision` accepts a candidate index that
is out of range of the referenced proposal's raw candidate list —
proposal 0 has one candidate, yet index 5 is stored without any error. -/
theorem recordDecision_out_of_range_accepted :
    recordDecision ledgerOneProposal 0 [(0, [5])] =
      .ok (⟨0, [(0, [5])]⟩,
        ⟨[⟨0, 0, "default", [[("x", .num 1)]]⟩], [⟨0, [(0, [5])]⟩], []⟩) ∧
    ¬ IndicesInRange ledgerOneProposal [(0, [5])] :=
  ⟨rfl, by decide⟩

/-- C8 (amended): `record_decision` performs no validation of
`candidate_indices`; whenever no decision exists yet it succeeds and
stores the accepted pairs verbatim, whether or not their indices are in
range of the referenced proposals. -/
theorem recordDecision_no_range_validation (st : LedgerState)
    (iterId : Nat) (accepted : List (Nat × List Nat))
    (h : decisionFor st iterId = none) :
    ∃ st', recordDecision st iterId accepted =
        .ok (⟨iterId, accepted⟩, st') ∧
      decisionFor st' iterId = some ⟨iterId, accepted⟩ := by
  refine ⟨{ st with decisions := st.decisions ++ [⟨iterId, accepted⟩] },
    ?_, ?_⟩
  · unfold recordDecision
    rw [h]
  · exact findDecision_append_self st.decisions iterId accepted h

/-- Closed instance of `recordDecision_no_range_validation` at an
out-of-range index. -/
theorem recordDecision_no_range_validation_witness :
    ∃ st', recordDecision ledgerOneProposal 0 [(0, [5])] =
        .ok (⟨0, [(0, [5])]⟩, st') ∧
      decisionFor st' 0 = some ⟨0, [(0, [5])]⟩ :=
  recordDecision_no_range_validation ledgerOneProposal 0 [(0, [5])]
    (by decide)

/-- C4 (counterexample): an observation whose `y` misses the objective
`y2` is accepted and persisted by the engine's `add_observation` — no
objective-coverage validation happens. -/
theorem addObservation_missing_objective_persisted :
    engineAddObservation obsSpec ⟨[], [], []⟩
        [("x", .num 1)] [("y1", 1)] =
      .ok ⟨[], [],
        [⟨[("x", .num 1)], some [1], [("y1", 1)], "user"⟩]⟩ ∧
    ¬ coversObjectives ["y1", "y2"] [("y1", 1)] := by
  constructor
  · have henc : encodeRow obsSpec [("x", .num 1)] = some [1] := by
      norm_num [encodeRow, encodeInput, obsSpec, isActive, lookupV,
        Value.num?, clamp01, Input.isConditional]
    unfold engineAddObservation
    rw [henc]
    rfl
  · decide

/-- C4 (amended): neither the ledger nor the engine validates coverage.
The ledger persists any observation unconditionally; the engine persists
whenever encoding succeeds — regardless of `y` — and fails exactly when
encoding `x_raw` fails. -/
theorem addObservation_no_validation (S : List Input) (st : LedgerState)
    (m : RawMap) (y : List (String × ℚ)) :
    (∀ enc, encodeRow S m = some enc →
      engineAddObservation S st m y =
        .ok (ledgerAddObservation st m y (some enc) "user")) ∧
    (encodeRow S m = none →
      engineAddObservation S st m y = .error .keyError) ∧
    (ledgerAddObservation st m y none "user").observations =
      st.observations ++ [⟨m, none, y, "user"⟩] := by
  refine ⟨?_, ?_, rfl⟩
  · intro enc h
    unfold engineAddObservation
    rw [h]
  · intro h
    unfold engineAddObservation
    rw [h]

/-- Closed instance of `addObservation_no_validation`: the `y`-missing-
coverage observation of the counterexample goes through the success
branch. -/
theorem addObservation_no_validation_witness :
    engineAddObservation obsSpec ⟨[], [], []⟩
        [("x", .num 1)] [("y1", 1)] =
      .ok (ledgerAddObservation ⟨[], [], []⟩
        [("x", .num 1)] [("y1", 1)] (some [1]) "user") :=
  (addObservation_no_validation obsSpec ⟨[], [], []⟩
      [("x", .num 1)] [("y1", 1)]).1 [1]
    (by
      norm_num [encodeRow, encodeInput, obsSpec, isActive, lookupV,
        Value.num?, clamp01, Input.isConditional])

/-! ## Encoding requires every declared key (C10) -/

theorem encodeInput_none_of_missing (m : RawMap) (inp : Input)
    (h : lookupV m inp.name = none) : encodeInput m inp = none := by
  unfold encodeInput
  cases hact : isActive m inp with
  | none => rfl
  | some act =>
      cases hk : inp.kind <;> simp [hk, h, Option.bind]

theorem encodeRow_none_of_input_none (S : List Input) (m : RawMap)
    (inp : Input) (hmem : inp ∈ S) (h : encodeInput m inp = none) :
    encodeRow S m = none := by
  induction S with
  | nil => cases hmem
  | cons hd tl ih =>
      rcases List.mem_cons.mp hmem with heq | htl
      · subst heq
        unfold encodeRow
        rw [h]
        rfl
      · unfold encodeRow
        cases hhd : encodeInput m hd with
        | none => rfl
        | some blk => rw [ih htl]; rfl

/-- C10: encoding is defined only when the map contains every declared
input's key: a map missing any declared input — active or not — makes
`encode`, and with it the engine's `add_observation`, fail rather than
substitute the neutral value. -/
theorem encode_requires_all_inputs (S : List Input) (m : RawMap)
    (inp : Input) (hmem : inp ∈ S)
    (hmiss : lookupV m inp.name = none) :
    encodeRow S m = none ∧
    ∀ st y, engineAddObservation S st m y = .error .keyError := by
  have henc : encodeRow S m = none :=
    encodeRow_none_of_input_none S m inp hmem
      (encodeInput_none_of_missing m inp hmiss)
  refine ⟨henc, ?_⟩
  intro st y
  unfold engineAddObservation
  rw [henc]

/-- Closed instance of `encode_requires_all_inputs`: the S3 map lacking
the `conc` key fails to encode even though `conc` is inactive under it. -/
theorem encode_requires_all_inputs_witness :
    lookupV s3MapMissing s3Conc.name = none ∧
    isActive s3MapMissing s3Conc = some false ∧
    encodeRow s3Spec s3MapMissing = none :=
  ⟨by decide, by decide,
   (encode_requires_all_inputs s3Spec s3MapMissing s3Conc
      (by simp [s3Spec]) (by decide)).1⟩

/-! ## Campaign state machine (C6) -/

theorem statusTrace_head (reqs : List CampaignStatus)
    (s : CampaignStatus) : (statusTrace s reqs).head? = some s := by
  induction reqs generalizing s with
  | nil => rfl
  | cons t ts ih =>
      unfold statusTrace updateStatus
      by_cases he : t ∈ validTransitions s
      · rw [if_pos he]
        rfl
      · rw [if_neg he]
        exact ih s

theorem length_filter_singleton {α : Type} (p : α → Bool) (x : α) :
    (List.filter p [x]).length ≤ 1 := by
  simp only [List.filter]
  cases p x <;> simp

/-- C6: a requested status change succeeds exactly along the edges
CREATED→ACTIVE, ACTIVE→PAUSED, ACTIVE→COMPLETED, PAUSED→ACTIVE,
PAUSED→ARCHIVED, COMPLETED→ARCHIVED (ARCHIVED terminal); every other
request fails with `InvalidStateTransition` leaving the status unchanged,
so the statuses any sequence of requests produces form a path in this
graph. -/
theorem updateStatus_graph (s t : CampaignStatus) :
    (StatusEdge s t ↔ (s, t) ∈
      [(CampaignStatus.created, CampaignStatus.active),
       (CampaignStatus.active, CampaignStatus.paused),
       (CampaignStatus.active, CampaignStatus.completed),
       (CampaignStatus.paused, CampaignStatus.active),
       (CampaignStatus.paused, CampaignStatus.archived),
       (CampaignStatus.completed, CampaignStatus.archived)]) ∧
    (StatusEdge s t → updateStatus s t = .ok t) ∧
    (¬ StatusEdge s t →
      updateStatus s t = .error (.invalidStateTransition s t)) ∧
    (∀ reqs, List.Chain' StatusEdge (statusTrace s reqs)) := by
  refine ⟨?_, ?_, ?_, ?_⟩
  · cases s <;> cases t <;> decide
  · intro h
    unfold updateStatus
    rw [if_pos (show t ∈ validTransitions s from h)]
  · intro h
    unfold updateStatus
    rw [if_neg (show ¬ t ∈ validTransitions s from h)]
  · intro reqs
    induction reqs generalizing s with
    | nil => exact List.chain'_singleton s
    | cons r rs ih =>
        unfold statusTrace updateStatus
        by_cases he : r ∈ validTransitions s
        · rw [if_pos he]
          rw [List.chain'_cons']
          refine ⟨?_, ih r⟩
          intro b hb
          rw [statusTrace_head] at hb
          cases hb
          exact he
        · rw [if_neg he]
          exact ih s

/-- Closed instance of `updateStatus_graph`: CREATED→ACTIVE succeeds and
ARCHIVED→ACTIVE fails. -/
theorem updateStatus_graph_witness :
    updateStatus .created .active = .ok .active ∧
    updateStatus .archived .active =
      .error (.invalidStateTransition .archived .active) :=
  ⟨(updateStatus_graph .created .active).2.1 (by decide),
   (updateStatus_graph .archived .active).2.2.1 (by decide)⟩

/-! ## Active-version uniqueness (C7) -/

/-- C7 (counterexample): two `create_from_spec` calls with the same name
leave two versions of `p` active at once — `create_from_spec` never
deactivates earlier versions. -/
theorem createFromSpec_duplicate_active :
    ((createFromSpec (createFromSpec [] "p") "p").filter
      (fun p => p.name = "p" ∧ p.isActive)).length = 2 ∧
    ¬ ActiveUnique (createFromSpec (createFromSpec [] "p") "p") := by
  refine ⟨by decide, ?_⟩
  intro h
  have := h "p"
  revert this
  decide

theorem filter_deactivated_eq_nil (store : ProcessStore) (name : String) :
    (store.map (fun p =>
        if p.name = name ∧ p.isActive then ⟨p.name, p.version, false⟩
        else p)).filter (fun p => p.name = name ∧ p.isActive) = [] := by
  rw [List.filter_eq_nil]
  intro p hp
  rcases List.mem_map.mp hp with ⟨q, _, hq⟩
  by_cases hcond : q.name = name ∧ q.isActive
  · rw [if_pos hcond] at hq
    subst hq
    simp
  · rw [if_neg hcond] at hq
    subst hq
    simpa using hcond

theorem filter_deactivated_other (store : ProcessStore)
    (name nm : String) (hne : nm ≠ name) :
    ((store.map (fun p =>
        if p.name = name ∧ p.isActive then ⟨p.name, p.version, false⟩
        else p)).filter (fun p => p.name = nm ∧ p.isActive)).length =
    (store.filter (fun p => p.name = nm ∧ p.isActive)).length := by
  induction store with
  | nil => rfl
  | cons q qs ih =>
      by_cases hcond : q.name = name ∧ q.isActive
      · have hq : ¬ (q.name = nm ∧ q.isActive) := by
          rintro ⟨h1, _⟩
          exact hne (h1 ▸ hcond.1)
        simp only [List.map_cons, if_pos hcond]
        rw [List.filter_cons, List.filter_cons]
        have h1 : ¬ (name = nm ∧ false = true) := by simp
        simp only [decide_eq_true_eq]
        rw [if_neg (by simpa using h1), if_neg (by simpa using hq)]
        exact ih
      · simp only [List.map_cons, if_neg hcond]
        rw [List.filter_cons, List.filter_cons]
        by_cases hq : q.name = nm ∧ q.isActive
        · rw [if_pos (by simpa using hq), if_pos (by simpa using hq)]
          simpa using ih
        · rw [if_neg (by simpa using hq), if_neg (by simpa using hq)]
          exact ih

/-- C7 (amended): `create_version` always preserves active-version
uniqueness (it deactivates every active version of the name first), while
`create_from_spec` preserves it only on a name with no existing versions —
it unconditionally inserts an active version-1 row. -/
theorem process_repo_active_unique (store : ProcessStore) (name : String)
    (hinv : ActiveUnique store) :
    (∀ store', createVersion store name = some store' →
      ActiveUnique store') ∧
    (store.filter (fun p => p.name = name) = [] →
      ActiveUnique (createFromSpec store name)) := by
  constructor
  · intro store' h
    unfold createVersion at h
    cases hvs : store.filter (fun p => p.name = name) with
    | nil => rw [hvs] at h; cases h
    | cons v vs =>
        rw [hvs] at h
        cases h
        intro nm
        rw [List.filter_append, List.length_append]
        by_cases hnm : nm = name
        · subst hnm
          rw [filter_deactivated_eq_nil]
          simp
        · rw [filter_deactivated_other store name nm hnm]
          have : (List.filter (fun p => decide (p.name = nm ∧ p.isActive))
              [(⟨name, ((vs.map ProcessRow.version).foldl max v.version) + 1,
                true⟩ : ProcessRow)]).length = 0 := by
            rw [List.length_eq_zero, List.filter_eq_nil]
            intro p hp
            rcases List.mem_singleton.mp hp with rfl
            simp only [decide_eq_true_eq]
            rintro ⟨h1, _⟩
            exact hnm h1.symm
          rw [this]
          simpa using hinv nm
  · intro hempty nm
    unfold createFromSpec
    rw [List.filter_append, List.length_append]
    by_cases hnm : nm = name
    · subst hnm
      have : store.filter (fun p => p.name = nm ∧ p.isActive) = [] := by
        rw [List.filter_eq_nil]
        intro p hp
        have h1 := List.filter_eq_nil.mp hempty p hp
        simp only [decide_eq_true_eq] at h1 ⊢
        rintro ⟨h2, _⟩
        exact h1 h2
      rw [this]
      simp
    · have : (List.filter (fun p => decide (p.name = nm ∧ p.isActive))
          [(⟨name, 1, true⟩ : ProcessRow)]).length = 0 := by
        rw [List.length_eq_zero, List.filter_eq_nil]
        intro p hp
        rcases List.mem_singleton.mp hp with rfl
        simp only [decide_eq_true_eq]
        rintro ⟨h1, _⟩
        exact hnm h1.symm
      rw [this]
      simpa using hinv nm

/-- Closed instance of `process_repo_active_unique`: creating version 2 of
a one-version store keeps exactly one active version. -/
theorem process_repo_active_unique_witness :
    ActiveUnique [(⟨"p", 1, false⟩ : ProcessRow), ⟨"p", 2, true⟩] :=
  (process_repo_active_unique [(⟨"p", 1, true⟩ : ProcessRow)] "p"
    (fun _ => length_filter_singleton _ _)).1
    [⟨"p", 1, false⟩, ⟨"p", 2, true⟩] rfl

/-! ## Job queue terminal transitions (C9) -/

theorem find?_map_update (store : List JobE) (id : Nat)
    (j : JobE) (f : JobE → JobE) (hf : ∀ x, (f x).id = x.id)
    (h : store.find? (fun x => x.id = id) = some j) :
    (store.map (fun x => if x.id = id then f x else x)).find?
      (fun x => x.id = id) = some (f j) := by
  induction store with
  | nil => cases h
  | cons q qs ih =>
      by_cases hq : q.id = id
      · rw [List.find?_cons_of_pos _ (by simpa using hq)] at h
        injection h with h
        subst h
        simp only [List.map_cons, if_pos hq]
        rw [List.find?_cons_of_pos _ (by simpa using (hf q).trans hq)]
      · rw [List.find?_cons_of_neg _ (by simpa using hq)] at h
        simp only [List.map_cons, if_neg hq]
        rw [List.find?_cons_of_neg _ (by simpa using hq)]
        exact ih h

/-- C9 (counterexample): `complete` succeeds on a PENDING job — it never
checks that the job is RUNNING — transitioning PENDING directly to
COMPLETED. -/
theorem jobComplete_on_pending :
    (findJob pendingJobStore 0).map JobE.status = some .pending ∧
    jobComplete pendingJobStore 0 none 7 =
      .ok [⟨0, .completed, some 1, none, none, some 7⟩] ∧
    JobStatus.pending ≠ JobStatus.running :=
  ⟨rfl, rfl, by decide⟩

/-- C9 (amended): `complete` and `fail` apply to any stored job whatever
its current status, setting COMPLETED/FAILED and `completed_at` (and
`progress = 1` for `complete`); only an unknown job id fails, with
`JobNotFoundError`. -/
theorem jobComplete_jobFail_spec (store : JobStore) (id : Nat)
    (r : Option (List (String × ℚ))) (err : String) (now : Nat) :
    (∀ j, findJob store id = some j →
      ∃ store', jobComplete store id r now = .ok store' ∧
        findJob store' id = some
          { j with status := .completed, result := r,
                   completedAt := some now, progress := some 1 } ∧
      ∃ store'', jobFail store id err now = .ok store'' ∧
        findJob store'' id = some
          { j with status := .failed, error := some err,
                   completedAt := some now }) ∧
    (findJob store id = none →
      jobComplete store id r now = .error (.jobNotFound id) ∧
      jobFail store id err now = .error (.jobNotFound id)) := by
  constructor
  · intro j h
    have hc : jobComplete store id r now = .ok (store.map (fun x =>
        if x.id = id then
          { x with status := .completed, result := r,
                   completedAt := some now, progress := some 1 }
        else x)) := by
      unfold jobComplete
      rw [h]
    have hfa : jobFail store id err now = .ok (store.map (fun x =>
        if x.id = id then
          { x with status := .failed, error := some err,
                   completedAt := some now }
        else x)) := by
      unfold jobFail
      rw [h]
    exact ⟨_, hc, find?_map_update store id j _ (fun x => rfl) h,
      _, hfa, find?_map_update store id j _ (fun x => rfl) h⟩
  · intro h
    constructor
    · unfold jobComplete
      rw [h]
    · unfold jobFail
      rw [h]

/-- Closed instance of `jobComplete_jobFail_spec` on the pending-job
store. -/
theorem jobComplete_jobFail_spec_witness :
    ∃ store', jobComplete pendingJobStore 0 none 7 = .ok store' ∧
      findJob store' 0 =
        some ⟨0, .completed, some 1, none, none, some 7⟩ := by
  obtain ⟨s', h1, h2, -⟩ :=
    ((jobComplete_jobFail_spec pendingJobStore 0 none "boom" 7).1
      ⟨0, .pending, none, none, none, none⟩ (by decide))
  exact ⟨s', h1, h2⟩

/-! ## Executor reference point (C2) -/

/-- C2 (counterexample): with one minimization objective and a supplied
reference point `[5]`, the executor hands `[5]` to the acquisition
builder unchanged, while the spec's rule demands the sign-flipped
`[-5]`. -/
theorem refPointUsed_not_sign_flipped :
    refPointUsed 1 [true] [[1], [3]] (some [5]) = [5] ∧
    specRefPoint 1 [true] [[1], [3]] (some [5]) = [-5] ∧
    refPointUsed 1 [true] [[1], [3]] (some [5]) ≠
      specRefPoint 1 [true] [[1], [3]] (some [5]) := by
  refine ⟨rfl, ?_, ?_⟩
  · show signFlipRow [true] [5] = [-5]
    simp [signFlipRow]
  · show ([5] : List ℝ) ≠ signFlipRow [true] [5]
    simp [signFlipRow]
    norm_num

theorem zipWith_map_same_list (f : ℝ → ℝ → ℝ) (g h : Nat → ℝ) :
    ∀ l : List Nat,
      List.zipWith f (l.map g) (l.map h) = l.map (fun x => f (g x) (h x))
  | [] => rfl
  | x :: xs => by
      simp only [List.map_cons, List.zipWith_cons_cons]
      rw [zipWith_map_same_list f g h xs]

/-- C2 (amended): a caller-supplied reference point reaches the
acquisition builder unchanged (it is only converted to a tensor, not
sign-flipped); when none is supplied the point is computed per objective
`j` as `min(Y_signed_j) − 0.1·std(Y_signed_j)` over the sign-flipped
columns. -/
theorem refPointUsed_spec (p : Nat) (flags : List Bool)
    (Y : List (List ℝ)) (r : List ℝ) :
    refPointUsed p flags Y (some r) = r ∧
    refPointUsed p flags Y none =
      autoRefPoint p (Y.map (signFlipRow flags)) ∧
    ∀ j < p, (autoRefPoint p (Y.map (signFlipRow flags))).get? j =
      some (minList (column (Y.map (signFlipRow flags)) j) -
        (1 / 10) * stdList (column (Y.map (signFlipRow flags)) j)) := by
  refine ⟨rfl, rfl, ?_⟩
  intro j hj
  unfold autoRefPoint torchMinDim0 torchStdDim0
  rw [zipWith_map_same_list]
  rw [List.get?_map, List.get?_range hj]
  rfl

/-! ## Grid and snapping lemmas -/

theorem foldl_min_le_init : ∀ (xs : List ℚ) (g : ℚ), xs.foldl min g ≤ g
  | [], g => le_refl g
  | x :: xs, g => (foldl_min_le_init xs (min g x)).trans (min_le_left g x)

theorem foldl_min_le_mem : ∀ (xs : List ℚ) (g q : ℚ), q ∈ xs →
    xs.foldl min g ≤ q
  | x :: xs, g, q, h => by
      rcases List.mem_cons.mp h with rfl | h'
      · exact (foldl_min_le_init xs (min g q)).trans (min_le_right g q)
      · exact foldl_min_le_mem xs (min g x) q h'

theorem foldl_min_mem : ∀ (xs : List ℚ) (g : ℚ),
    xs.foldl min g = g ∨ xs.foldl min g ∈ xs
  | [], _ => .inl rfl
  | x :: xs, g => by
      rcases foldl_min_mem xs (min g x) with h | h
      · rcases min_choice g x with hc | hc
        · left; rw [List.foldl_cons, h, hc]
        · right; rw [List.foldl_cons, h, hc]; exact List.mem_cons_self x xs
      · right; exact List.mem_cons_of_mem x h

theorem foldl_max_ge_init : ∀ (xs : List ℚ) (g : ℚ), g ≤ xs.foldl max g
  | [], g => le_refl g
  | x :: xs, g => (le_max_left g x).trans (foldl_max_ge_init xs (max g x))

theorem foldl_max_ge_mem : ∀ (xs : List ℚ) (g q : ℚ), q ∈ xs →
    q ≤ xs.foldl max g
  | x :: xs, g, q, h => by
      rcases List.mem_cons.mp h with rfl | h'
      · exact (le_max_right g q).trans (foldl_max_ge_init xs (max g q))
      · exact foldl_max_ge_mem xs (max g x) q h'

theorem gridMin_le (vs : List ℚ) (q : ℚ) (h : q ∈ vs) : gridMin vs ≤ q := by
  cases vs with
  | nil => cases h
  | cons v rest =>
      rcases List.mem_cons.mp h with rfl | h'
      · exact foldl_min_le_init rest q
      · exact foldl_min_le_mem rest v q h'

theorem gridMax_ge (vs : List ℚ) (q : ℚ) (h : q ∈ vs) : q ≤ gridMax vs := by
  cases vs with
  | nil => cases h
  | cons v rest =>
      rcases List.mem_cons.mp h with rfl | h'
      · exact foldl_max_ge_init rest q
      · exact foldl_max_ge_mem rest v q h'

theorem gridMin_mem (vs : List ℚ) (h : vs ≠ []) : gridMin vs ∈ vs := by
  cases vs with
  | nil => cases h rfl
  | cons v rest =>
      rcases foldl_min_mem rest v with h' | h'
      · rw [show gridMin (v :: rest) = rest.foldl min v from rfl, h']
        exact List.mem_cons_self v rest
      · exact List.mem_cons_of_mem v h'

theorem grid_const_of_min_eq_max (vs : List ℚ)
    (h : gridMin vs = gridMax vs) (q : ℚ) (hq : q ∈ vs) :
    q = gridMin vs :=
  le_antisymm (h ▸ gridMax_ge vs q hq) (gridMin_le vs q hq)

theorem snapAux_mem : ∀ (rest : List ℚ) (v b d : ℚ),
    snapAux v b d rest ∈ b :: rest
  | [], _, _, _ => List.mem_cons_self _ _
  | g :: rest, v, b, d => by
      unfold snapAux
      by_cases h : |g - v| < d
      · rw [if_pos h]
        exact List.mem_cons_of_mem b (snapAux_mem rest v g (|g - v|))
      · rw [if_neg h]
        rcases List.mem_cons.mp (snapAux_mem rest v b d) with h' | h'
        · rw [h']; exact List.mem_cons_self b _
        · exact List.mem_cons_of_mem b (List.mem_cons_of_mem g h')

theorem snapAux_dist : ∀ (rest : List ℚ) (v b : ℚ),
    |snapAux v b (|b - v|) rest - v| ≤ |b - v| ∧
    ∀ g ∈ rest, |snapAux v b (|b - v|) rest - v| ≤ |g - v|
  | [], v, b => ⟨le_refl _, by simp⟩
  | g :: rest, v, b => by
      unfold snapAux
      by_cases h : |g - v| < |b - v|
      · rw [if_pos h]
        obtain ⟨ih1, ih2⟩ := snapAux_dist rest v g
        refine ⟨ih1.trans h.le, ?_⟩
        intro g' hg'
        rcases List.mem_cons.mp hg' with rfl | hg'
        · exact ih1
        · exact ih2 g' hg'
      · rw [if_neg h]
        push_neg at h
        obtain ⟨ih1, ih2⟩ := snapAux_dist rest v b
        refine ⟨ih1, ?_⟩
        intro g' hg'
        rcases List.mem_cons.mp hg' with rfl | hg'
        · exact ih1.trans h
        · exact ih2 g' hg'

theorem snapGrid_self (grid : List ℚ) (v : ℚ) (h : v ∈ grid) :
    snapGrid grid v = some v := by
  cases grid with
  | nil => cases h
  | cons g rest =>
      show some (snapAux v g (|g - v|) rest) = some v
      congr 1
      obtain ⟨h1, h2⟩ := snapAux_dist rest v g
      have hz : |snapAux v g (|g - v|) rest - v| ≤ 0 := by
        rcases List.mem_cons.mp h with rfl | hv
        · simpa using h1
        · simpa using h2 v hv
      have := abs_nonneg (snapAux v g (|g - v|) rest - v)
      have hzero : snapAux v g (|g - v|) rest - v = 0 :=
        abs_eq_zero.mp (le_antisymm hz this)
      exact sub_eq_zero.mp hzero

theorem snapGrid_mem_of_ne_nil (grid : List ℚ) (v : ℚ) (h : grid ≠ []) :
    ∃ g, snapGrid grid v = some g ∧ g ∈ grid := by
  cases grid with
  | nil => cases h rfl
  | cons g rest =>
      exact ⟨snapAux v g (|g - v|) rest, rfl, snapAux_mem rest v g _⟩

/-! ## Argmax and one-hot lemmas -/

theorem argmaxIdx_lt : ∀ (xs : List ℚ), xs ≠ [] →
    argmaxIdx xs < xs.length
  | [], h => absurd rfl h
  | x :: xs, _ => by
      unfold argmaxIdx
      by_cases h : xs.any (fun y => decide (x < y))
      · rw [if_pos h]
        have hne : xs ≠ [] := by
          rintro rfl
          simp at h
        simpa using Nat.succ_lt_succ (argmaxIdx_lt xs hne)
      · rw [if_neg h]
        simp

theorem oneHot_length : ∀ (k j : Nat), (oneHot k j).length = k
  | 0, _ => rfl
  | k + 1, 0 => by simp [oneHot]
  | k + 1, j + 1 => by
      simpa [oneHot] using oneHot_length k j

theorem one_mem_oneHot : ∀ (k j : Nat), j < k → (1 : ℚ) ∈ oneHot k j
  | k + 1, 0, _ => List.mem_cons_self _ _
  | k + 1, j + 1, h => by
      unfold oneHot
      exact List.mem_cons_of_mem _
        (one_mem_oneHot k j (Nat.lt_of_succ_lt_succ h))

theorem argmaxIdx_oneHot : ∀ (k j : Nat), j < k →
    argmaxIdx (oneHot k j) = j
  | k + 1, 0, _ => by
      show argmaxIdx (1 :: List.replicate k 0) = 0
      unfold argmaxIdx
      rw [if_neg]
      simp only [List.any_eq_true, decide_eq_true_eq, not_exists]
      intro y hy
      rw [List.eq_of_mem_replicate hy.1] at hy
      exact absurd hy.2 (by norm_num)
  | k + 1, j + 1, h => by
      show argmaxIdx (0 :: oneHot k j) = j + 1
      unfold argmaxIdx
      rw [if_pos]
      · rw [argmaxIdx_oneHot k j (Nat.lt_of_succ_lt_succ h)]
      · rw [List.any_eq_true]
        exact ⟨1, one_mem_oneHot k j (Nat.lt_of_succ_lt_succ h),
          by norm_num⟩

/-! ## Snap-to-grid idempotence (C5) -/

theorem width_continuous (nm : String) (lo hi : ℚ)
    (act : Option (List (String × List Value))) :
    width ⟨nm, .continuous lo hi, act⟩ =
      1 + (if act.isSome then 1 else 0) := rfl

theorem width_discrete (nm : String) (vs : List ℚ)
    (act : Option (List (String × List Value))) :
    width ⟨nm, .discrete vs, act⟩ =
      1 + (if act.isSome then 1 else 0) := rfl

theorem width_categorical (nm : String) (cats : List String)
    (act : Option (List (String × List Value))) :
    width ⟨nm, .categorical cats, act⟩ =
      cats.length + (if act.isSome then 1 else 0) := rfl

theorem snapInput_spec (inp : Input) (cols : List ℚ) (hwf : wfKind inp)
    (hlen : width inp ≤ cols.length) :
    ∃ blk, snapInput inp cols = some blk ∧ blk.length = width inp ∧
      ∀ rest, snapInput inp (blk ++ rest) = some blk := by
  obtain ⟨nm, k, act⟩ := inp
  have ha1 : (if act.isSome then 1 else 0) ≤ 1 := by split <;> omega
  cases k with
  | continuous lo hi =>
      refine ⟨cols.take (width ⟨nm, .continuous lo hi, act⟩), rfl, ?_, ?_⟩
      · rw [List.length_take]
        exact min_eq_left hlen
      · intro rest
        show some _ = some _
        congr 1
        refine List.take_left' ?_
        rw [List.length_take]
        exact min_eq_left hlen
  | discrete vs =>
      have hvs : vs ≠ [] := hwf
      rw [width_discrete] at hlen
      cases cols with
      | nil =>
          exfalso
          simp only [List.length] at hlen
          omega
      | cons c cols' =>
          obtain ⟨g, hg, hgmem⟩ :=
            snapGrid_mem_of_ne_nil vs (c * (gridMax vs - gridMin vs) +
              gridMin vs) hvs
          have hale : (if act.isSome then 1 else 0) ≤ cols'.length := by
            rw [List.length_cons] at hlen
            omega
          have hta : (cols'.take (if act.isSome then 1 else 0)).length =
              (if act.isSome then 1 else 0) := by
            rw [List.length_take]
            exact min_eq_left hale
          refine ⟨(g - gridMin vs) / (gridMax vs - gridMin vs) ::
            cols'.take (if act.isSome then 1 else 0), ?_, ?_, ?_⟩
          · show ((c :: cols').head?.bind fun c0 =>
              (snapGrid vs (c0 * (gridMax vs - gridMin vs) +
                gridMin vs)).bind fun g0 =>
                some ((g0 - gridMin vs) / (gridMax vs - gridMin vs) ::
                  ((c :: cols').drop 1).take
                    (if act.isSome then 1 else 0))) = _
            rw [List.head?_cons, Option.some_bind, hg, Option.some_bind]
            rfl
          · rw [List.length_cons, hta, width_discrete]
            omega
          · intro rest
            have hsnap2 : snapGrid vs
                ((g - gridMin vs) / (gridMax vs - gridMin vs) *
                  (gridMax vs - gridMin vs) + gridMin vs) = some g := by
              by_cases heq : gridMin vs = gridMax vs
              · have hglo : g = gridMin vs :=
                  grid_const_of_min_eq_max vs heq g hgmem
                rw [hglo]
                simp only [sub_self, zero_div, zero_mul, zero_add]
                exact snapGrid_self vs (gridMin vs) (gridMin_mem vs hvs)
              · have hne : gridMax vs - gridMin vs ≠ 0 :=
                  sub_ne_zero.mpr (Ne.symm heq)
                rw [div_mul_cancel₀ _ hne, sub_add_cancel]
                exact snapGrid_self vs g hgmem
            show ((((g - gridMin vs) / (gridMax vs - gridMin vs) ::
                cols'.take (if act.isSome then 1 else 0)) ++
                rest).head?.bind fun c0 =>
              (snapGrid vs (c0 * (gridMax vs - gridMin vs) +
                gridMin vs)).bind fun g0 =>
                some ((g0 - gridMin vs) / (gridMax vs - gridMin vs) ::
                  ((((g - gridMin vs) / (gridMax vs - gridMin vs) ::
                    cols'.take (if act.isSome then 1 else 0)) ++
                    rest).drop 1).take
                      (if act.isSome then 1 else 0))) = _
            rw [List.cons_append, List.head?_cons, Option.some_bind,
              hsnap2, Option.some_bind]
            congr 2
            rw [List.drop_one, List.tail_cons]
            exact List.take_left' hta
  | categorical cats =>
      have hk0 : 0 < cats.length := List.length_pos.mpr hwf.1
      rw [width_categorical] at hlen
      have hkle : cats.length ≤ cols.length := by omega
      have hale : (if act.isSome then 1 else 0) ≤
          cols.length - cats.length := by omega
      have htk : (cols.take cats.length).length = cats.length := by
        rw [List.length_take]
        exact min_eq_left hkle
      have hne : cols.take cats.length ≠ [] := by
        intro hnil
        rw [hnil] at htk
        simp only [List.length_nil] at htk
        omega
      have hidxlt : argmaxIdx (cols.take cats.length) < cats.length := by
        have h := argmaxIdx_lt _ hne
        rw [htk] at h
        exact h
      have hda : ((cols.drop cats.length).take
          (if act.isSome then 1 else 0)).length =
          (if act.isSome then 1 else 0) := by
        rw [List.length_take, List.length_drop]
        exact min_eq_left hale
      refine ⟨oneHot cats.length (argmaxIdx (cols.take cats.length)) ++
        (cols.drop cats.length).take (if act.isSome then 1 else 0),
        ?_, ?_, ?_⟩
      · show (if 0 < cats.length ∧ cats.length ≤ cols.length then _
          else none) = _
        rw [if_pos ⟨hk0, hkle⟩]
        rfl
      · rw [List.length_append, oneHot_length, hda, width_categorical]
      · intro rest
        have hlen2 : cats.length ≤ (oneHot cats.length
            (argmaxIdx (cols.take cats.length)) ++
            ((cols.drop cats.length).take (if act.isSome then 1 else 0) ++
              rest)).length := by
          rw [List.length_append, oneHot_length]
          omega
        show (if 0 < cats.length ∧ cats.length ≤
            ((oneHot cats.length (argmaxIdx (cols.take cats.length)) ++
              (cols.drop cats.length).take (if act.isSome then 1 else 0)) ++
              rest).length then
            some (oneHot cats.length (argmaxIdx
              (((oneHot cats.length (argmaxIdx (cols.take cats.length)) ++
                (cols.drop cats.length).take
                  (if act.isSome then 1 else 0)) ++
                rest).take cats.length)) ++
              (((oneHot cats.length (argmaxIdx (cols.take cats.length)) ++
                (cols.drop cats.length).take
                  (if act.isSome then 1 else 0)) ++
                rest).drop cats.length).take
                  (if act.isSome then 1 else 0))
          else none) = _
        rw [List.append_assoc]
        rw [if_pos ⟨hk0, hlen2⟩]
        rw [List.take_left' (oneHot_length cats.length _),
          List.drop_left' (oneHot_length cats.length _)]
        rw [argmaxIdx_oneHot cats.length _ hidxlt]
        rw [List.take_left' hda]

theorem totalWidth_cons (inp : Input) (rest : List Input) :
    totalWidth (inp :: rest) = width inp + totalWidth rest := by
  unfold totalWidth
  rw [List.map_cons, List.sum_cons]

theorem snapRow_spec : ∀ (S : List Input) (cols : List ℚ),
    (∀ inp ∈ S, wfKind inp) → totalWidth S ≤ cols.length →
    ∃ out, snapRow S cols = some out ∧ out.length = cols.length ∧
      snapRow S out = some out
  | [], cols, _, _ => ⟨cols, rfl, rfl, rfl⟩
  | inp :: rest, cols, hwf, hlen => by
      rw [totalWidth_cons] at hlen
      obtain ⟨blk, hblk, hblen, hidem⟩ := snapInput_spec inp cols
        (hwf inp (List.mem_cons_self inp rest)) (by omega)
      have hlen' : totalWidth rest ≤ (cols.drop (width inp)).length := by
        rw [List.length_drop]
        omega
      obtain ⟨tl, htl, htlen, htidem⟩ := snapRow_spec rest
        (cols.drop (width inp))
        (fun i hi => hwf i (List.mem_cons_of_mem inp hi)) hlen'
      refine ⟨blk ++ tl, ?_, ?_, ?_⟩
      · show ((snapInput inp cols).bind fun b =>
          (snapRow rest (cols.drop (width inp))).bind fun t =>
            some (b ++ t)) = _
        rw [hblk, Option.some_bind, htl, Option.some_bind]
      · rw [List.length_append, hblen, htlen, List.length_drop]
        have : width inp ≤ cols.length := by omega
        omega
      · show ((snapInput inp (blk ++ tl)).bind fun b =>
          (snapRow rest ((blk ++ tl).drop (width inp))).bind fun t =>
            some (b ++ t)) = _
        rw [hidem tl, Option.some_bind, List.drop_left' hblen, htidem,
          Option.some_bind]

/-- C5: the snap-to-grid projection is idempotent on every `n × d` matrix
(`d` the encoder's total column count): one application succeeds and a
second application reproduces its output exactly — categorical groups are
hardened by argmax, discrete columns snapped on the grid, continuous and
activity columns passed through. -/
theorem snapToGrid_idempotent (S : List Input) (x : List (List ℚ))
    (hwf : WFSpec S) (hrows : ∀ r ∈ x, r.length = totalWidth S) :
    ∃ y, snapMatrix S x = some y ∧ snapMatrix S y = some y := by
  induction x with
  | nil => exact ⟨[], rfl, rfl⟩
  | cons r rs ih =>
      obtain ⟨out, h1, h2, h3⟩ := snapRow_spec S r hwf.2
        (le_of_eq (hrows r (List.mem_cons_self r rs)).symm)
      obtain ⟨ys, hy1, hy2⟩ := ih (fun r' hr' =>
        hrows r' (List.mem_cons_of_mem r hr'))
      refine ⟨out :: ys, ?_, ?_⟩
      · show ((snapRow S r).bind fun r' =>
          (snapMatrix S rs).bind fun rs' => some (r' :: rs')) = _
        rw [h1, Option.some_bind, hy1, Option.some_bind]
      · show ((snapRow S out).bind fun r' =>
          (snapMatrix S ys).bind fun rs' => some (r' :: rs')) = _
        rw [h3, Option.some_bind, hy2, Option.some_bind]

/-- Closed instance of `snapToGrid_idempotent` on a one-row matrix over a
discrete grid. -/
theorem snapToGrid_idempotent_witness :
    ∃ y, snapMatrix discSpec [[0]] = some y ∧
      snapMatrix discSpec y = some y :=
  snapToGrid_idempotent discSpec [[0]] (by decide) (by decide)

/-! ## Encode/decode roundtrip (C1) -/

theorem clamp01_of_unit (x : ℚ) (h0 : 0 ≤ x) (h1 : x ≤ 1) :
    clamp01 x = x := by
  unfold clamp01
  rw [max_eq_right h0, min_eq_right h1]

theorem checkActivity_isSome (m : RawMap) :
    ∀ conds : List (String × List Value),
      (∀ p ∈ conds, (lookupV m p.1).isSome) →
      ∃ b, checkActivity m conds = some b
  | [], _ => ⟨true, rfl⟩
  | (ref, vals) :: rest, h => by
      obtain ⟨v, hv⟩ := Option.isSome_iff_exists.mp
        (h (ref, vals) (List.mem_cons_self _ _))
      obtain ⟨b, hb⟩ := checkActivity_isSome m rest
        (fun p hp => h p (List.mem_cons_of_mem _ hp))
      refine ⟨vals.contains v && b, ?_⟩
      show (lookupV m ref).bind _ = _
      rw [hv, Option.some_bind, hb]
      rfl

theorem checkActivity_congr (m m' : RawMap) :
    ∀ conds : List (String × List Value),
      (∀ p ∈ conds, lookupV m' p.1 = lookupV m p.1) →
      checkActivity m' conds = checkActivity m conds
  | [], _ => rfl
  | (ref, vals) :: rest, h => by
      show (lookupV m' ref).bind _ = (lookupV m ref).bind _
      rw [h (ref, vals) (List.mem_cons_self _ _),
        checkActivity_congr m m' rest
          (fun p hp => h p (List.mem_cons_of_mem _ hp))]

theorem isActive_congr (m m' : RawMap) (inp : Input)
    (h : ∀ conds, inp.activeIf = some conds →
      ∀ p ∈ conds, lookupV m' p.1 = lookupV m p.1) :
    isActive m' inp = isActive m inp := by
  rcases hai : inp.activeIf with _ | conds
  · unfold isActive
    rw [hai]
  · unfold isActive
    rw [hai]
    exact checkActivity_congr m m' conds (h conds hai)

theorem argmaxIdx_all_le_head (x : ℚ) (xs : List ℚ)
    (h : ∀ y ∈ xs, y ≤ x) : argmaxIdx (x :: xs) = 0 := by
  unfold argmaxIdx
  rw [if_neg]
  simp only [List.any_eq_true, decide_eq_true_eq, not_exists]
  intro y hy
  exact absurd (h y hy.1) (not_le.mpr hy.2)

theorem argmax_indicator : ∀ (cats : List String) (s : String),
    s ∈ cats →
    cats.get? (argmaxIdx (cats.map
      (fun c => if s = c then (1 : ℚ) else 0))) = some s
  | c :: rest, s, hmem => by
      by_cases hcs : s = c
      · rw [List.map_cons, if_pos hcs]
        rw [argmaxIdx_all_le_head]
        · rw [List.get?_cons_zero, hcs]
        · intro y hy
          rcases List.mem_map.mp hy with ⟨c', _, rfl⟩
          split <;> norm_num
      · rw [List.map_cons, if_neg hcs]
        have hmem' : s ∈ rest := by
          rcases List.mem_cons.mp hmem with rfl | h
          · exact absurd rfl hcs
          · exact h
        have hone : (1 : ℚ) ∈ rest.map
            (fun c => if s = c then (1 : ℚ) else 0) :=
          List.mem_map.mpr ⟨s, hmem', by rw [if_pos rfl]⟩
        unfold argmaxIdx
        rw [if_pos]
        · rw [List.get?_cons_succ]
          exact argmax_indicator rest s hmem'
        · rw [List.any_eq_true]
          exact ⟨1, hone, by norm_num⟩

theorem argmaxIdx_replicate_zero (k : Nat) :
    argmaxIdx (List.replicate k (0 : ℚ)) = 0 := by
  cases k with
  | zero => rfl
  | succ k =>
      rw [List.replicate_succ]
      refine argmaxIdx_all_le_head _ _ ?_
      intro y hy
      rw [List.eq_of_mem_replicate hy]

theorem decodeInput_continuous_eval (nm : String) (lo hi : ℚ)
    (act : Option (List (String × List Value))) (c : ℚ) (t : List ℚ) :
    decodeInput ⟨nm, .continuous lo hi, act⟩ (c :: t) =
      some (Value.num (c * (hi - lo) + lo)) := rfl

theorem decodeInput_discrete_eval (nm : String) (vs : List ℚ)
    (act : Option (List (String × List Value))) (c : ℚ) (t : List ℚ) :
    decodeInput ⟨nm, .discrete vs, act⟩ (c :: t) =
      (snapGrid vs (c * (gridMax vs - gridMin vs) + gridMin vs)).bind
        (fun g => some (Value.num g)) := rfl

theorem decodeInput_categorical_eval (nm : String) (cats : List String)
    (act : Option (List (String × List Value))) (cols : List ℚ)
    (h : cats.length ≤ cols.length) :
    decodeInput ⟨nm, .categorical cats, act⟩ cols =
      (cats.get? (argmaxIdx (cols.take cats.length))).map Value.str := by
  show (if cats.length ≤ cols.length then _ else none) = _
  rw [if_pos h]

/-- Per-input roundtrip: for a well-formed input with a valid present
value, `encode` produces its block of columns and `decode` of that block
(followed by anything) recovers the raw value exactly whenever the input
is active under `m`. -/
theorem encodeInput_decode (m : RawMap) (inp : Input) (b : Bool)
    (hwf : wfKind inp)
    (hv : ∃ v, lookupV m inp.name = some v ∧ ValidValue inp.kind v)
    (hact : isActive m inp = some b) :
    ∃ blk, encodeInput m inp = some blk ∧ blk.length = width inp ∧
      ∀ rest, ∃ v', decodeInput inp (blk ++ rest) = some v' ∧
        (b = true → some v' = lookupV m inp.name) := by
  obtain ⟨v, hl, hvv⟩ := hv
  obtain ⟨nm, k, act⟩ := inp
  cases k with
  | continuous lo hi =>
      have hlo : lo < hi := hwf
      obtain ⟨q, rfl⟩ : ∃ q, v = Value.num q := by
        cases v with
        | num q => exact ⟨q, rfl⟩
        | str s => exact absurd hvv (by simp [ValidValue])
      obtain ⟨hq1, hq2⟩ : lo ≤ q ∧ q ≤ hi := hvv
      refine ⟨(if b then clamp01 ((q - lo) / (hi - lo)) else 1 / 2) ::
        (if act.isSome then [if b then (1 : ℚ) else 0] else []),
        ?_, ?_, ?_⟩
      · show (isActive m ⟨nm, .continuous lo hi, act⟩).bind _ = _
        rw [hact, Option.some_bind]
        show ((lookupV m nm).bind Value.num?).bind _ = _
        rw [hl]
        rfl
      · rw [List.length_cons, width_continuous]
        cases act <;> simp
      · intro rest
        refine ⟨Value.num ((if b then clamp01 ((q - lo) / (hi - lo))
          else 1 / 2) * (hi - lo) + lo), rfl, ?_⟩
        intro hb
        subst hb
        rw [if_pos rfl]
        have hne : hi - lo ≠ 0 := ne_of_gt (sub_pos.mpr hlo)
        rw [clamp01_of_unit _ (div_nonneg (sub_nonneg.mpr hq1)
          (sub_pos.mpr hlo).le) ((div_le_one (sub_pos.mpr hlo)).mpr
          (sub_le_sub_right hq2 lo))]
        rw [div_mul_cancel₀ _ hne, sub_add_cancel, hl]
  | discrete vs =>
      have hvs : vs ≠ [] := hwf
      obtain ⟨q, rfl⟩ : ∃ q, v = Value.num q := by
        cases v with
        | num q => exact ⟨q, rfl⟩
        | str s => exact absurd hvv (by simp [ValidValue])
      have hqmem : q ∈ vs := hvv
      have hq1 : gridMin vs ≤ q := gridMin_le vs q hqmem
      have hq2 : q ≤ gridMax vs := gridMax_ge vs q hqmem
      refine ⟨(if b then clamp01 ((q - gridMin vs) /
          (gridMax vs - gridMin vs)) else 1 / 2) ::
        (if act.isSome then [if b then (1 : ℚ) else 0] else []),
        ?_, ?_, ?_⟩
      · show (isActive m ⟨nm, .discrete vs, act⟩).bind _ = _
        rw [hact, Option.some_bind]
        show ((lookupV m nm).bind Value.num?).bind _ = _
        rw [hl]
        rfl
      · rw [List.length_cons, width_discrete]
        cases act <;> simp
      · intro rest
        set c : ℚ := if b then clamp01 ((q - gridMin vs) /
          (gridMax vs - gridMin vs)) else 1 / 2 with hc
        obtain ⟨g, hg, hgmem⟩ := snapGrid_mem_of_ne_nil vs
          (c * (gridMax vs - gridMin vs) + gridMin vs) hvs
        refine ⟨Value.num g, ?_, ?_⟩
        · rw [List.cons_append, decodeInput_discrete_eval, hg,
            Option.some_bind]
        · intro hb
          subst hb
          rw [if_pos rfl] at hc
          rw [hl]
          have hgq : g = q := by
            by_cases heq : gridMin vs = gridMax vs
            · have hqlo : q = gridMin vs :=
                grid_const_of_min_eq_max vs heq q hqmem
              have hc0 : c = 0 := by
                rw [hc, hqlo]
                rw [sub_self, zero_div, clamp01_of_unit 0 le_rfl zero_le_one]
              rw [hc0, zero_mul, zero_add] at hg
              have := snapGrid_self vs (gridMin vs) (gridMin_mem vs hvs)
              rw [this] at hg
              rw [← Option.some_inj.mp hg, hqlo]
            · have hlt : gridMin vs < gridMax vs :=
                lt_of_le_of_ne (hq1.trans hq2) heq
              have hne : gridMax vs - gridMin vs ≠ 0 :=
                ne_of_gt (sub_pos.mpr hlt)
              have hcq : c = (q - gridMin vs) /
                  (gridMax vs - gridMin vs) := by
                rw [hc]
                exact clamp01_of_unit _ (div_nonneg (sub_nonneg.mpr hq1)
                  (sub_pos.mpr hlt).le) ((div_le_one
                    (sub_pos.mpr hlt)).mpr (sub_le_sub_right hq2 _))
              rw [hcq, div_mul_cancel₀ _ hne, sub_add_cancel] at hg
              have := snapGrid_self vs q hqmem
              rw [this] at hg
              exact (Option.some_inj.mp hg).symm
          rw [hgq]
  | categorical cats =>
      obtain ⟨hcne, hcnodup⟩ : cats ≠ [] ∧ cats.Nodup := hwf
      obtain ⟨s, rfl⟩ : ∃ s, v = Value.str s := by
        cases v with
        | num q => exact absurd hvv (by simp [ValidValue])
        | str s => exact ⟨s, rfl⟩
      have hsmem : s ∈ cats := hvv
      refine ⟨cats.map (fun c =>
          if b ∧ Value.str s = Value.str c then (1 : ℚ) else 0) ++
        (if act.isSome then [if b then (1 : ℚ) else 0] else []),
        ?_, ?_, ?_⟩
      · show (isActive m ⟨nm, .categorical cats, act⟩).bind _ = _
        rw [hact, Option.some_bind]
        show (lookupV m nm).bind _ = _
        rw [hl]
        rfl
      · rw [List.length_append, List.length_map, width_categorical]
        cases act <;> simp
      · intro rest
        have hmaplen : (cats.map (fun c =>
            if b ∧ Value.str s = Value.str c then (1 : ℚ) else 0)).length =
            cats.length := List.length_map _ _
        have hguard : cats.length ≤ ((cats.map (fun c =>
            if b ∧ Value.str s = Value.str c then (1 : ℚ) else 0) ++
            (if act.isSome then [if b then (1 : ℚ) else 0] else [])) ++
            rest).length := by
          rw [List.length_append, List.length_append, hmaplen]
          omega
        have htake : ((cats.map (fun c =>
            if b ∧ Value.str s = Value.str c then (1 : ℚ) else 0) ++
            (if act.isSome then [if b then (1 : ℚ) else 0] else [])) ++
            rest).take cats.length = cats.map (fun c =>
            if b ∧ Value.str s = Value.str c then (1 : ℚ) else 0) := by
          rw [List.append_assoc]
          exact List.take_left' hmaplen
        have hdec : decodeInput ⟨nm, .categorical cats, act⟩
            ((cats.map (fun c =>
              if b ∧ Value.str s = Value.str c then (1 : ℚ) else 0) ++
              (if act.isSome then [if b then (1 : ℚ) else 0] else [])) ++
              rest) =
            (cats.get? (argmaxIdx (cats.map (fun c =>
              if b ∧ Value.str s = Value.str c then (1 : ℚ) else 0)))).map
              Value.str := by
          show (if cats.length ≤ _ then _ else none) = _
          rw [if_pos hguard, htake]
        cases b with
        | false =>
            have hzero : cats.map (fun c =>
                if (false : Bool) ∧ Value.str s = Value.str c then (1 : ℚ)
                else 0) = List.replicate cats.length 0 := by
              have hconst : ∀ l : List String,
                  l.map (fun _ => (0 : ℚ)) = List.replicate l.length 0 := by
                intro l
                induction l with
                | nil => rfl
                | cons a l ih => simp [ih, List.replicate_succ]
              rw [show (fun c => if (false : Bool) ∧
                  Value.str s = Value.str c then (1 : ℚ) else 0) =
                  (fun _ : String => (0 : ℚ)) from funext fun c => by simp]
              exact hconst cats
            cases cats with
            | nil => exact absurd rfl hcne
            | cons c0 cs =>
                refine ⟨Value.str c0, ?_, ?_⟩
                · rw [hdec, hzero, argmaxIdx_replicate_zero]
                  rfl
                · intro h
                  exact absurd h (by decide)
        | true =>
            have hindic : cats.map (fun c =>
                if (true : Bool) ∧ Value.str s = Value.str c then (1 : ℚ)
                else 0) = cats.map (fun c =>
                if s = c then (1 : ℚ) else 0) := by
              refine List.map_congr_left ?_
              intro c _
              by_cases h : s = c <;> simp [h]
            refine ⟨Value.str s, ?_, fun _ => by rw [hl]⟩
            rw [hdec, hindic, argmax_indicator cats s hsmem]
            rfl

/-- Structural roundtrip: encoding a valid map succeeds and decoding the
result yields a map aligned with the spec, exact on active inputs. -/
theorem roundtrip_forall₂ : ∀ (S : List Input) (m : RawMap),
    (∀ inp ∈ S, wfKind inp) →
    (∀ inp ∈ S, ∃ v, lookupV m inp.name = some v ∧
      ValidValue inp.kind v) →
    (∀ inp ∈ S, ∃ b, isActive m inp = some b) →
    ∃ cols m', encodeRow S m = some cols ∧ decodeRow S cols = some m' ∧
      List.Forall₂ (fun inp (p : String × Value) =>
        p.1 = inp.name ∧
        (isActive m inp = some true → some p.2 = lookupV m inp.name))
        S m'
  | [], _, _, _, _ => ⟨[], [], rfl, rfl, .nil⟩
  | inp :: rest, m, hwf, hval, hacts => by
      obtain ⟨b, hb⟩ := hacts inp (List.mem_cons_self inp rest)
      obtain ⟨blk, hblk, hblen, hdec⟩ := encodeInput_decode m inp b
        (hwf inp (List.mem_cons_self inp rest))
        (hval inp (List.mem_cons_self inp rest)) hb
      obtain ⟨cols', m'', h1, h2, h3⟩ := roundtrip_forall₂ rest m
        (fun i hi => hwf i (List.mem_cons_of_mem inp hi))
        (fun i hi => hval i (List.mem_cons_of_mem inp hi))
        (fun i hi => hacts i (List.mem_cons_of_mem inp hi))
      obtain ⟨v', hv', himp⟩ := hdec cols'
      refine ⟨blk ++ cols', (inp.name, v') :: m'', ?_, ?_, ?_⟩
      · show (encodeInput m inp).bind _ = _
        rw [hblk, Option.some_bind, h1]
        rfl
      · show (decodeInput inp (blk ++ cols')).bind _ = _
        rw [hv', Option.some_bind, List.drop_left' hblen, h2]
        rfl
      · refine List.Forall₂.cons ⟨rfl, ?_⟩ h3
        intro hT
        rw [hb] at hT
        exact himp (Option.some_inj.mp hT)

theorem lookupV_of_forall₂ : ∀ (S : List Input) (m : RawMap)
    (m' : RawMap),
    List.Forall₂ (fun inp (p : String × Value) =>
      p.1 = inp.name ∧
      (isActive m inp = some true → some p.2 = lookupV m inp.name))
      S m' →
    (S.map Input.name).Nodup →
    ∀ inp ∈ S, isActive m inp = some true →
      lookupV m' inp.name = lookupV m inp.name := by
  intro S m m' hf
  induction hf with
  | nil =>
      intro _ inp hinp
      cases hinp
  | @cons inp₀ p₀ rest tl hR htl ih =>
      intro hnodup inp hinp hact
      rw [List.map_cons, List.nodup_cons] at hnodup
      rcases List.mem_cons.mp hinp with rfl | hinp'
      · show (if p₀.1 = inp.name then some p₀.2 else lookupV tl inp.name) = _
        rw [if_pos hR.1, hR.2 hact]
      · have hne : p₀.1 ≠ inp.name := by
          rw [hR.1]
          intro hcontra
          exact hnodup.1 (hcontra ▸ List.mem_map_of_mem Input.name hinp')
        show (if p₀.1 = inp.name then some p₀.2 else lookupV tl inp.name) = _
        rw [if_neg hne]
        exact ih hnodup.2 inp hinp' hact

/-- C1 (amended): for every map `m` valid under a well-formed spec whose
referenced categoricals are all active under `m` (in particular whenever
no `active_if` references a conditional input), decoding the encoding of
`m` recovers `m` exactly on every input active under `m`, and every
input's activity is identical under `m` and under the decoded map.  When a
referenced categorical is itself inactive under `m`, the activity of its
dependents may change (see the counterexample). -/
theorem decode_encode_roundtrip (S : List Input) (m : RawMap)
    (hwf : WFSpec S) (hval : ValidFor S m) (hrefs : RefsActive S m) :
    ∃ cols m', encodeRow S m = some cols ∧ decodeRow S cols = some m' ∧
      (∀ inp ∈ S, isActive m inp = some true →
        lookupV m' inp.name = lookupV m inp.name) ∧
      (∀ inp ∈ S, isActive m' inp = isActive m inp) := by
  have hrefs' : ∀ inp ∈ S, ∀ conds, inp.activeIf = some conds →
      ∀ p ∈ conds, ∃ ref ∈ S, ref.name = p.1 ∧
        isActive m ref = some true := by
    intro inp hinp conds hai p hp
    have h := hrefs inp hinp
    rw [hai] at h
    have h' := h p hp
    unfold activeName at h'
    cases hf : S.find? (fun i => i.name = p.1) with
    | none =>
        rw [hf] at h'
        cases h'
    | some ref =>
        rw [hf] at h'
        have hpred := List.find?_some hf
        simp only [decide_eq_true_eq] at hpred
        exact ⟨ref, List.mem_of_find?_eq_some hf, hpred, h'⟩
  have hacts : ∀ inp ∈ S, ∃ b, isActive m inp = some b := by
    intro inp hinp
    rcases hai : inp.activeIf with _ | conds
    · exact ⟨true, by unfold isActive; rw [hai]⟩
    · have : ∀ p ∈ conds, (lookupV m p.1).isSome := by
        intro p hp
        obtain ⟨ref, hrmem, hrname, -⟩ := hrefs' inp hinp conds hai p hp
        obtain ⟨v, hv, -⟩ := hval ref hrmem
        rw [← hrname, hv]
        rfl
      obtain ⟨b, hb⟩ := checkActivity_isSome m conds this
      exact ⟨b, by unfold isActive; rw [hai]; exact hb⟩
  obtain ⟨cols, m', h1, h2, h3⟩ := roundtrip_forall₂ S m hwf.2 hval hacts
  have hlook : ∀ inp ∈ S, isActive m inp = some true →
      lookupV m' inp.name = lookupV m inp.name :=
    lookupV_of_forall₂ S m m' h3 hwf.1
  refine ⟨cols, m', h1, h2, hlook, ?_⟩
  intro inp hinp
  refine isActive_congr m m' inp ?_
  intro conds hai p hp
  obtain ⟨ref, hrmem, hrname, hractive⟩ := hrefs' inp hinp conds hai p hp
  rw [← hrname]
  exact hlook ref hrmem hractive

/-- Closed instance of `decode_encode_roundtrip` on the S3 seed spec with
the conditional input active. -/
theorem decode_encode_roundtrip_witness :
    WFSpec s3Spec ∧ ValidFor s3Spec s3Map ∧ RefsActive s3Spec s3Map ∧
    ∃ cols m', encodeRow s3Spec s3Map = some cols ∧
      decodeRow s3Spec cols = some m' ∧
      (∀ inp ∈ s3Spec, isActive s3Map inp = some true →
        lookupV m' inp.name = lookupV s3Map inp.name) ∧
      (∀ inp ∈ s3Spec, isActive m' inp = isActive s3Map inp) := by
  have hwf : WFSpec s3Spec := by
    constructor
    · decide
    · intro inp hinp
      rcases List.mem_cons.mp hinp with rfl | hinp
      · decide
      · rcases List.mem_cons.mp hinp with rfl | hinp
        · show (1 : ℚ) / 100 < 1 / 2
          norm_num
        · cases hinp
  have hval : ValidFor s3Spec s3Map := by
    intro inp hinp
    rcases List.mem_cons.mp hinp with rfl | hinp
    · exact ⟨.str "MACl", rfl, by decide⟩
    · rcases List.mem_cons.mp hinp with rfl | hinp
      · refine ⟨.num (1 / 4), rfl, ?_⟩
        show (1 : ℚ) / 100 ≤ 1 / 4 ∧ (1 : ℚ) / 4 ≤ 1 / 2
        norm_num
      · cases hinp
  have hrefs : RefsActive s3Spec s3Map := by
    intro inp hinp
    rcases List.mem_cons.mp hinp with rfl | hinp
    · trivial
    · rcases List.mem_cons.mp hinp with rfl | hinp
      · intro p hp
        rcases List.mem_singleton.mp hp with rfl
        rfl
      · cases hinp
  exact ⟨hwf, hval, hrefs,
    decode_encode_roundtrip s3Spec s3Map hwf hval hrefs⟩

/-- C1 (counterexample): under `chainSpec` the input `x` is active under
`chainMap` (its governing categorical `A` is set to `b`) but inactive
under `decode(encode(chainMap))` — `A` is itself inactive, so its one-hot
block encodes as all zeros and decodes to the first level `a`, flipping
the activity of `x`.  The claimed activity preservation fails. -/
theorem decode_encode_activity_not_preserved :
    WFSpec chainSpec ∧ ValidFor chainSpec chainMap ∧
    isActive chainMap exX = some true ∧
    ∃ cols m', encodeRow chainSpec chainMap = some cols ∧
      decodeRow chainSpec cols = some m' ∧
      isActive m' exX = some false := by
  refine ⟨?_, ?_, rfl, [1, 0, 0, 0, 0, 1, 1],
    [("B", .str "off"), ("A", .str "a"), ("x", .num 1)], ?_, ?_, rfl⟩
  · constructor
    · decide
    · intro inp hinp
      rcases List.mem_cons.mp hinp with rfl | hinp
      · decide
      · rcases List.mem_cons.mp hinp with rfl | hinp
        · decide
        · rcases List.mem_cons.mp hinp with rfl | hinp
          · show (0 : ℚ) < 1
            norm_num
          · cases hinp
  · intro inp hinp
    rcases List.mem_cons.mp hinp with rfl | hinp
    · exact ⟨.str "off", rfl, by decide⟩
    · rcases List.mem_cons.mp hinp with rfl | hinp
      · exact ⟨.str "b", rfl, by decide⟩
      · rcases List.mem_cons.mp hinp with rfl | hinp
        · refine ⟨.num 1, rfl, ?_⟩
          show (0 : ℚ) ≤ 1 ∧ (1 : ℚ) ≤ 1
          norm_num
        · cases hinp
  · simp +decide [encodeRow, encodeInput, chainSpec, chainMap, exB, exA,
      exX, isActive, checkActivity, lookupV, Value.num?, clamp01,
      Input.isConditional]
  · simp +decide [decodeRow, decodeInput, chainSpec, exB, exA, exX, width,
      contentWidth, Input.isConditional, argmaxIdx]

/-- Closed instance of `refPointUsed_spec`: a supplied point passes
through, and the automatic point on the constant column `[2, 2]` of a
minimization objective is `−2` (zero standard deviation). -/
theorem refPointUsed_spec_witness :
    refPointUsed 1 [true] [[2], [2]] (some [3]) = [3] ∧
    (autoRefPoint 1 ([[2], [2]].map (signFlipRow [true]))).get? 0 =
      some (-2) := by
  constructor
  · exact (refPointUsed_spec 1 [true] [[2], [2]] [3]).1
  · have h := (refPointUsed_spec 1 [true] [[2], [2]] [3]).2.2 0
      (by norm_num)
    rw [h]
    have hcol : column ([[2], [2]].map (signFlipRow [true])) 0 =
        [-2, -2] := by
      norm_num [column, signFlipRow]
    rw [hcol]
    have hmin : minList [(-2 : ℝ), -2] = -2 := by
      norm_num [minList]
    have hstd : stdList [(-2 : ℝ), -2] = 0 := by
      unfold stdList meanList
      norm_num
    rw [hmin, hstd]
    norm_num

end BOA
